import Mathlib

/-!
Verification of the mint-to-tiller-csv transformation pipeline.

This file gives a shallow embedding of the two scripts of the repository:

* `mint-json-to-csv.py` (the Flattener): collects the union of keys of a
  sequence of JSON records, removes a fixed exclusion set, sorts the keys,
  and emits one rectangular row per record.
* `mint-to-tiller-csv.py` (the Normalizer): filters PENDING and zero-amount
  rows out of a transaction table, writes the discarded rows to a side file,
  and maps the remaining rows to a fixed 18-column output schema.

Strings are embedded as `List Char` (Python `str` restricted to the
characters the scripts actually manipulate), decimal amounts as `Rat`
(pandas floats, exact on the decimal literals of the input files), and the
file writes performed by a run as an ordered list of `FileWrite` events, so
that the order of the discard write relative to a fatal transform error is
observable.
-/

namespace MintTiller

/-! ## Character and string helpers (models of Python `str` methods) -/

/-- Model of Python `str.upper` on one character, ASCII fragment: the
letters a-z map to A-Z, every other character is unchanged. -/
def pyUpperChar (c : Char) : Char :=
  if 97 ≤ c.toNat ∧ c.toNat ≤ 122 then Char.ofNat (c.toNat - 32) else c

/-- Model of Python `str.lower` on one character, ASCII fragment: the
letters A-Z map to a-z, every other character is unchanged. -/
def pyLowerChar (c : Char) : Char :=
  if 65 ≤ c.toNat ∧ c.toNat ≤ 90 then Char.ofNat (c.toNat + 32) else c

/-- Model of Python `str.upper` (ASCII fragment). -/
def pyUpper (s : List Char) : List Char := s.map pyUpperChar

/-- Model of Python `str.lower` (ASCII fragment). -/
def pyLower (s : List Char) : List Char := s.map pyLowerChar

/-- The characters Python `str.strip()` removes: space, tab, newline,
carriage return, vertical tab, form feed. -/
def isPySpace (c : Char) : Bool :=
  c = ' ' || c = '\t' || c = '\n' || c = '\r' || c = '\x0b' || c = '\x0c'

/-- Model of Python `str.strip()`: drop leading and trailing whitespace. -/
def pyStripWs (s : List Char) : List Char :=
  ((s.dropWhile isPySpace).reverse.dropWhile isPySpace).reverse

/-- Worker for `collapse_multiple_spaces_to_two`.  The flag records whether
we are inside a run of spaces whose two output spaces have already been
emitted (such further spaces of the run are dropped). -/
def collapseAux : Bool → List Char → List Char
  | _, [] => []
  | true, c :: rest =>
      if c = ' ' then collapseAux true rest else c :: collapseAux false rest
  | false, c :: rest =>
      if c = ' ' then
        match rest with
        | ' ' :: _ => ' ' :: ' ' :: collapseAux true rest
        | _ => ' ' :: collapseAux false rest
      else c :: collapseAux false rest

/-- `collapse_multiple_spaces_to_two` from mint-to-tiller-csv.py:
`re.sub(r' {2,}', '  ', text)` — every maximal run of two or more spaces
is replaced by exactly two spaces; lone spaces are unchanged. -/
def collapse_multiple_spaces_to_two (text : List Char) : List Char :=
  collapseAux false text

/-- `strip` from mint-to-tiller-csv.py:
`collapse_multiple_spaces_to_two(text.strip())`. -/
def strip (text : List Char) : List Char :=
  collapse_multiple_spaces_to_two (pyStripWs text)

/-- `derive_account_number` from mint-to-tiller-csv.py:
`re.search(r"(\d{4})$", account_name)` — the regex matches exactly when the
final four characters of the name are decimal digits, and captures those
four characters. -/
def derive_account_number (account_name : List Char) : List Char :=
  match account_name.reverse with
  | d1 :: d2 :: d3 :: d4 :: _ =>
      if d1.isDigit && d2.isDigit && d3.isDigit && d4.isDigit then
        'x' :: 'x' :: 'x' :: 'x' :: [d4, d3, d2, d1]
      else []
  | _ => []

/-- Is `n` a contiguous substring of the second list?  Model of the Python
`in` operator on strings, used by `derive_institution`. -/
def isSubstring (n : List Char) : List Char → Bool
  | [] => n.isPrefixOf []
  | c :: t => n.isPrefixOf (c :: t) || isSubstring n t

/-- The ordered list of known institution names from `derive_institution`. -/
def known_institutions : List (List Char) :=
  ["Bank of America".data, "Wells Fargo".data, "Chase".data,
   "American Express".data, "Merrill Lynch".data, "Capital One".data,
   "Vanguard".data, "HSA Bank".data, "Citi".data]

/-- The `for name in known_institutions` loop of `derive_institution`:
first name whose lowercase form occurs in the lowercase account name wins;
the returned name is `name.strip()` (Python `str.strip`). -/
def findInstitution : List (List Char) → List Char → List Char
  | [], _ => "Unknown".data
  | n :: rest, a =>
      if isSubstring (pyLower n) (pyLower a) then pyStripWs n
      else findInstitution rest a

/-- `derive_institution` from mint-to-tiller-csv.py. -/
def derive_institution (account_name : List Char) : List Char :=
  if "Adv Plus Banking".data.isPrefixOf account_name
      || "Adv SafeBalance Banking".data.isPrefixOf account_name then
    "Bank of America".data
  else if "Unlimited Cash Rewards Visa Signature".data.isPrefixOf account_name then
    "Bank of America".data
  else
    findInstitution known_institutions account_name

/-! ## Numeric and date parsing (models of the pandas collaborators) -/

/-- Numeric value of a list of decimal digit characters. -/
def natVal (s : List Char) : Nat :=
  s.foldl (fun a c => a * 10 + (c.toNat - 48)) 0

/-- Split a string at the first dot: characters before the first dot,
and (when a dot is present) the characters after it. -/
def splitDot : List Char → List Char × Option (List Char)
  | [] => ([], none)
  | c :: rest =>
      if c = '.' then ([], some rest)
      else
        let p := splitDot rest
        (c :: p.1, p.2)

/-- Parse an unsigned decimal literal (digits, optionally with one dot, at
least one digit in total) as a rational.  Part of the model of the pandas
`read_csv` numeric-column inference. -/
def parseUnsigned (s : List Char) : Option Rat :=
  let p := splitDot s
  match p.2 with
  | none =>
      if p.1 ≠ [] ∧ p.1.all Char.isDigit then some ((natVal p.1 : Nat) : Rat)
      else none
  | some f =>
      if (p.1 ≠ [] ∨ f ≠ []) ∧ p.1.all Char.isDigit ∧ f.all Char.isDigit then
        some (((natVal p.1 : Nat) : Rat) + ((natVal f : Nat) : Rat) / ((10 : Rat) ^ f.length))
      else none

/-- Parse a signed decimal literal as a rational.  Restrictive model of
the numeric interpretation pandas `read_csv` gives a CSV cell: it
recognizes the plain signed-decimal fragment only.  The real reader also
accepts empty cells (NaN), scientific notation and inf/nan, so theorems
use `parseRat s = some q` only as a hypothesis restricting attention to
the decimal fragment, on which the two interpretations agree; no theorem
treats `parseRat s = none` alone as evidence that pandas rejects the
cell (that stronger fact is `definitelyNonNumeric`). -/
def parseRat (s : List Char) : Option Rat :=
  match s with
  | [] => parseUnsigned []
  | c :: rest =>
      if c = '-' then (parseUnsigned rest).map (fun q => -q)
      else if c = '+' then parseUnsigned rest
      else parseUnsigned (c :: rest)

/-- A calendar date. -/
structure PDate where
  year : Nat
  month : Nat
  day : Nat
deriving DecidableEq

/-- Gregorian leap-year test. -/
def isLeap (y : Nat) : Bool :=
  (y % 4 = 0 && y % 100 ≠ 0) || y % 400 = 0

/-- Days in a month of the Gregorian calendar. -/
def daysInMonth (y m : Nat) : Nat :=
  if m = 2 then (if isLeap y then 29 else 28)
  else if m = 4 ∨ m = 6 ∨ m = 9 ∨ m = 11 then 30
  else 31

/-- Restrictive model of the library collaborator `pd.to_datetime`,
covering the ISO `YYYY-MM-DD` form the Mint export uses.  The real parser
accepts many more formats, so theorems use `parseDate s = some d` (or
`isSome`) only as a hypothesis restricting attention to the ISO fragment,
on which the two parsers agree; no theorem infers a fatal run from
`parseDate s = none` alone. -/
def parseDate (s : List Char) : Option PDate :=
  match s with
  | [y1, y2, y3, y4, '-', m1, m2, '-', d1, d2] =>
      if ([y1, y2, y3, y4, m1, m2, d1, d2]).all Char.isDigit then
        let y := natVal [y1, y2, y3, y4]
        let m := natVal [m1, m2]
        let d := natVal [d1, d2]
        if 1 ≤ m ∧ m ≤ 12 ∧ 1 ≤ d ∧ d ≤ daysInMonth y m then
          some ⟨y, m, d⟩
        else none
      else none
  | _ => none

/-- Day count of a date in the proleptic Gregorian calendar, with
0000-03-01 as day 0 (the standard era-based civil-date algorithm). -/
def daysFromCivil (p : PDate) : Nat :=
  let y := if p.month ≤ 2 then p.year - 1 else p.year
  let era := y / 400
  let yoe := y % 400
  let mp := if p.month > 2 then p.month - 3 else p.month + 9
  let doy := (153 * mp + 2) / 5 + p.day - 1
  let doe := yoe * 365 + yoe / 4 - yoe / 100 + doy
  era * 146097 + doe

/-- Inverse of `daysFromCivil`. -/
def civilFromDays (z : Nat) : PDate :=
  let era := z / 146097
  let doe := z % 146097
  let yoe := (doe - doe / 1460 + doe / 36524 - doe / 146096) / 365
  let y := yoe + era * 400
  let doy := doe - (365 * yoe + yoe / 4 - yoe / 100)
  let mp := (5 * doy + 2) / 153
  let d := doy - (153 * mp + 2) / 5 + 1
  let m := if mp < 10 then mp + 3 else mp - 9
  { year := y + (if m ≤ 2 then 1 else 0), month := m, day := d }

/-- Decimal digits of a natural number. -/
def natChars (n : Nat) : List Char :=
  (Nat.repr n).data

/-- Two-digit year, as `strftime %y`: the year modulo 100, zero padded. -/
def fmtYY (y : Nat) : List Char :=
  let r := y % 100
  if r < 10 then '0' :: natChars r else natChars r

/-- `M/D/YYYY` with no leading zeros on month or day (the `%-m/%-d/%Y`
format of the Date column and the f-string of the Date Added column). -/
def fmtMDYYYY (p : PDate) : List Char :=
  natChars p.month ++ '/' :: natChars p.day ++ '/' :: natChars p.year

/-- The Month column: first day of the month of the posted date, as
`M/1/YY`. -/
def fmtMonth (p : PDate) : List Char :=
  natChars p.month ++ '/' :: '1' :: '/' :: fmtYY p.year

/-- The Week column: the Monday starting the pandas weekly period
(`W`, week ending Sunday) that contains the posted date, as `M/D/YY`.
Day 0 of `daysFromCivil` (0000-03-01) is a Wednesday, so the weekday index
with Monday = 0 is `(g + 2) % 7`. -/
def fmtWeek (p : PDate) : List Char :=
  let g := daysFromCivil p
  let wd := (g + 2) % 7
  let mon := civilFromDays (g - wd)
  natChars mon.month ++ '/' :: natChars mon.day ++ '/' :: fmtYY mon.year

/-! ## The Normalizer (mint-to-tiller-csv.py) -/

/-- A cell of the pandas `amount` column after `read_csv` dtype inference:
numeric when the whole column parsed as numbers, otherwise the raw text. -/
inductive Cell where
  | num (q : Rat)
  | str (s : List Char)
deriving DecidableEq

/-- The value a cell contributes to `df['amount'] == 0`: a string cell
never compares equal to the number 0. -/
def cellEqZero : Cell → Bool
  | .num q => q == 0
  | .str _ => false

/-- `format_amount` from mint-to-tiller-csv.py: `-abs(amount)` when
`transaction_type.upper() == "DEBIT"`, else `abs(amount)`.  Taking the
absolute value of a string cell raises (`Except.error`). -/
def format_amount : Cell → List Char → Except Unit Rat
  | .num q, t => .ok (if pyUpper t = "DEBIT".data then -|q| else |q|)
  | .str _, _ => .error ()

/-- One row of the Normalizer input table.  The `amount` and `postedDate`
fields are kept as raw CSV text; their numeric and date interpretations
are applied where the script applies them. -/
structure Row where
  description : List Char
  accountName : List Char
  categoryName : List Char
  amount : List Char
  transactionType : List Char
  postedDate : List Char
  status : List Char
deriving DecidableEq

/-- One row of the 18-column output schema.  `amount` carries the numeric
value the script computes (its CSV serialization is a collaborator). -/
structure OutRow where
  date : List Char
  description : List Char
  category : List Char
  amount : Rat
  account : List Char
  accountNum : List Char
  institution : List Char
  month : List Char
  week : List Char
  transactionId : List Char
  accountTag : List Char
  checkNumber : List Char
  fullDescription : List Char
  dateAdded : List Char
  categoryHint : List Char
  categorizedBy : List Char
  categorizedDate : List Char
  source : List Char
deriving DecidableEq

/-- Model of the pandas dtype inference for the `amount` column: the
column is numeric when every cell parses as a number.  Because `parseRat`
covers the decimal fragment only, theorems rely on this flag in two
faithful situations: `amountsNumeric rows = true` (every cell a decimal
literal, so the real column is numeric too) as a hypothesis, and
`amountsNumeric rows = false` derived from a `definitelyNonNumeric` cell
(which forces the real column to object dtype as well). -/
def amountsNumeric (rows : List Row) : Bool :=
  rows.all (fun r => (parseRat r.amount).isSome)

/-- The cell `df['amount']` holds for a row, given the column dtype. -/
def cellOf (numeric : Bool) (s : List Char) : Cell :=
  if numeric then
    match parseRat s with
    | some q => .num q
    | none => .str s
  else .str s

/-- `filter_pending_transactions` from mint-to-tiller-csv.py: the rows
with `status == 'PENDING'` (case-sensitive), in input order. -/
def filter_pending_transactions (rows : List Row) : List Row :=
  rows.filter (fun r => r.status == "PENDING".data)

/-- The rows that survive the PENDING filter (`df.drop(pending_indices)`),
in input order. -/
def restRows (rows : List Row) : List Row :=
  rows.filter (fun r => !(r.status == "PENDING".data))

/-- `zero_amount_df`: the zero-amount rows of the already-PENDING-filtered
table. -/
def zeroRows (rows : List Row) : List Row :=
  (restRows rows).filter (fun r => cellEqZero (cellOf (amountsNumeric rows) r.amount))

/-- The valid rows: survivors of both filters, in input order. -/
def validRows (rows : List Row) : List Row :=
  (restRows rows).filter (fun r => !cellEqZero (cellOf (amountsNumeric rows) r.amount))

/-- The transform of one valid row into the 18-column schema, as performed
by the column assignments of `transform_transactions`; `today` is
`date.today()`.  An error is a fatal exception of the run (a non-numeric
amount cell reaching `abs`, or a posted date `pd.to_datetime` rejects). -/
def transformRow (today : PDate) (numeric : Bool) (r : Row) : Except Unit OutRow :=
  match format_amount (cellOf numeric r.amount) r.transactionType with
  | .error e => .error e
  | .ok amt =>
      match parseDate r.postedDate with
      | none => .error ()
      | some pd =>
          .ok
            { date := fmtMDYYYY pd
              description := strip r.description
              category := []
              amount := amt
              account := strip r.accountName
              accountNum := derive_account_number r.accountName
              institution := derive_institution r.accountName
              month := fmtMonth pd
              week := fmtWeek pd
              transactionId := []
              accountTag := []
              checkNumber := []
              fullDescription := strip r.description
              dateAdded := fmtMDYYYY today
              categoryHint := strip r.categoryName
              categorizedBy := []
              categorizedDate := []
              source := "Mint".data }

/-- Transform every valid row; the first fatal exception aborts the run. -/
def transformAll (today : PDate) (numeric : Bool) : List Row → Except Unit (List OutRow)
  | [] => .ok []
  | r :: rs =>
      match transformRow today numeric r with
      | .error e => .error e
      | .ok o =>
          match transformAll today numeric rs with
          | .error e => .error e
          | .ok os => .ok (o :: os)

/-- A file write performed by a run: the discard file (rows in their
original input shape) or the main output file (18-column rows). -/
inductive FileWrite where
  | discard (t : List Row)
  | output (t : List OutRow)
deriving DecidableEq

/-- The observable outcome of a run: the file writes it committed, in
order, and whether it terminated with a fatal error. -/
structure RunResult where
  writes : List FileWrite
  error : Bool
deriving DecidableEq

/-- `transform_transactions` from mint-to-tiller-csv.py, as a function of
the loaded input table and the current date.  The discard file is written
before the per-row transform runs, so a fatal transform error leaves the
discard write committed and the main output unwritten. -/
def transform_transactions (rows : List Row) (today : PDate) : RunResult :=
  let pending := filter_pending_transactions rows
  let zero := zeroRows rows
  let discarded := pending ++ zero
  let writes0 := if discarded.length > 0 then [FileWrite.discard discarded] else []
  match transformAll today (amountsNumeric rows) (validRows rows) with
  | .error _ => { writes := writes0, error := true }
  | .ok outRows => { writes := writes0 ++ [FileWrite.output outRows], error := false }

/-! ## The Flattener (mint-json-to-csv.py) -/

/-- A raw JSON record: an association list from field name to scalar value
(a Python dict, so keys are unique at the source). -/
abbrev Record := List (List Char × List Char)

/-- `EXCLUDED_KEYS` from mint-json-to-csv.py. -/
def EXCLUDED_KEYS : List (List Char) :=
  ["tags".data, "escrow".data, "escrowCurrency".data, "discretionaryType".data,
   "principal".data, "principalCurrency".data, "quantity".data]

/-- Code-point lexicographic order on strings, the order Python `sorted`
uses on `str`. -/
def strLt : List Char → List Char → Bool
  | [], [] => false
  | [], _ :: _ => true
  | _ :: _, [] => false
  | a :: as, b :: bs => a.toNat < b.toNat || (a.toNat = b.toNat && strLt as bs)

/-- Non-strict companion of `strLt`. -/
def strLe (a b : List Char) : Bool := !strLt b a

/-- Insert a string into a `strLe`-sorted list. -/
def insertSorted (x : List Char) : List (List Char) → List (List Char)
  | [] => [x]
  | y :: ys => if strLe x y then x :: y :: ys else y :: insertSorted x ys

/-- Insertion sort with the Python string order, the model of `sorted`. -/
def sortKeys : List (List Char) → List (List Char)
  | [] => []
  | x :: xs => insertSorted x (sortKeys xs)

/-- The keys of one record. -/
def recordKeys (r : Record) : List (List Char) :=
  r.map Prod.fst

/-- `keys.update(item.keys())` over all records: the set of keys appearing
in any record (as a duplicate-free list). -/
def allKeys (data : List Record) : List (List Char) :=
  (data.flatMap recordKeys).dedup

/-- The resolved CSV field names: the key set minus the excluded keys,
sorted. -/
def fieldnames (data : List Record) : List (List Char) :=
  sortKeys ((allKeys data).filter (fun k => !EXCLUDED_KEYS.contains k))

/-- The row `csv.DictWriter` emits for one record: one value per field
name, the record's value when the key is present, the rest-value `""`
otherwise; keys outside the field names are ignored. -/
def rowFor (cols : List (List Char)) (r : Record) : List (List Char) :=
  cols.map (fun k => (r.lookup k).getD [])

/-- The whole Flattener: `none` when the input array is empty (no file is
written), otherwise the header and the data rows of transactions.csv. -/
def flatten (data : List Record) : Option (List (List Char) × List (List (List Char))) :=
  if data.isEmpty then none
  else some (fieldnames data, data.map (rowFor (fieldnames data)))

/-! ## Claim-side definitions -/

/-- No three consecutive spaces occur in the string (the shape invariant
of collapsed strings, used to settle idempotence of `strip`). -/
def noTriple : List Char → Bool
  | c1 :: c2 :: c3 :: rest =>
      !(c1 = ' ' && c2 = ' ' && c3 = ' ') && noTriple (c2 :: c3 :: rest)
  | _ => true

/-- Erase the only run-date-dependent column of an output row. -/
def blankAdded (o : OutRow) : OutRow :=
  { o with dateAdded := [] }

/-- Erase the Date Added column from a file write. -/
def blankWrite : FileWrite → FileWrite
  | .discard t => .discard t
  | .output t => .output (t.map blankAdded)

/-- Erase the Date Added column from every write of a run. -/
def blankRun (res : RunResult) : RunResult :=
  { res with writes := res.writes.map blankWrite }

/-- Every output row written by the run carries `s` in its Date Added
column. -/
def dateAddedConst (res : RunResult) (s : List Char) : Bool :=
  res.writes.all fun w =>
    match w with
    | .output t => t.all (fun o => o.dateAdded == s)
    | .discard _ => true

/-- Build a concrete input row from string literals. -/
def mkRow (desc acct cat amt ty pd st : String) : Row :=
  ⟨desc.data, acct.data, cat.data, amt.data, ty.data, pd.data, st.data⟩

/-- A PENDING row (witness input). -/
def rowPending : Row := mkRow "p" "Acc" "c" "5" "debit" "2023-01-15" "PENDING"

/-- A zero-amount row (witness input). -/
def rowZero : Row := mkRow "z" "Acc" "c" "0" "debit" "2023-01-15" "POSTED"

/-- A fully valid row (witness input). -/
def rowValid : Row :=
  mkRow "My  Coffee" "My Chase Checking 1234" "Food" "42" "Debit" "2023-01-15" "POSTED"

/-- A concrete run date used by the witnesses. -/
def dEx : PDate := ⟨2023, 10, 12⟩

/-- A second concrete run date used by the witnesses. -/
def dEx2 : PDate := ⟨2024, 1, 2⟩

/-- Witness input table with one row of each classification. -/
def exRows : List Row := [rowPending, rowZero, rowValid]

/-- Witness input for the Flattener: two records with uneven key sets and
one excluded key. -/
def exData : List Record :=
  [[("b".data, "1".data), ("a".data, "2".data), ("tags".data, "z".data)],
   [("c".data, "3".data)]]

/-! ## Lemmas about space collapsing -/

theorem collapseAux_nil (b : Bool) : collapseAux b [] = [] := by
  cases b <;> rfl

theorem collapseAux_true_space (r : List Char) :
    collapseAux true (' ' :: r) = collapseAux true r := by
  simp [collapseAux]

theorem collapseAux_true_nonspace (c : Char) (r : List Char) (h : c ≠ ' ') :
    collapseAux true (c :: r) = c :: collapseAux false r := by
  simp [collapseAux, h]

theorem collapseAux_false_nonspace (c : Char) (r : List Char) (h : c ≠ ' ') :
    collapseAux false (c :: r) = c :: collapseAux false r := by
  simp [collapseAux, h]

theorem collapseAux_false_space_space (r : List Char) :
    collapseAux false (' ' :: ' ' :: r) = ' ' :: ' ' :: collapseAux true r := by
  simp [collapseAux]

theorem collapseAux_false_space_nil : collapseAux false [' '] = [' '] := by
  simp [collapseAux]

theorem collapseAux_false_space_nonspace (c : Char) (r : List Char) (h : c ≠ ' ') :
    collapseAux false (' ' :: c :: r) = ' ' :: collapseAux false (c :: r) := by
  simp [collapseAux, h]

theorem collapseAux_idem : ∀ s : List Char,
    collapseAux false (collapseAux false s) = collapseAux false s ∧
    collapseAux false (collapseAux true s) = collapseAux true s ∧
    collapseAux true (collapseAux true s) = collapseAux true s
  | [] => by simp [collapseAux]
  | c :: r => by
    by_cases hc : c = ' '
    · subst hc
      match r with
      | [] =>
        refine ⟨?_, ?_, ?_⟩
        · rw [collapseAux_false_space_nil, collapseAux_false_space_nil]
        · rw [collapseAux_true_space, collapseAux_nil, collapseAux_nil]
        · rw [collapseAux_true_space, collapseAux_nil, collapseAux_nil]
      | c2 :: r2 =>
        have ihr := collapseAux_idem (c2 :: r2)
        have ih2 := collapseAux_idem r2
        by_cases hc2 : c2 = ' '
        · subst hc2
          refine ⟨?_, ?_, ?_⟩
          · rw [collapseAux_false_space_space, collapseAux_false_space_space, ih2.2.2]
          · rw [collapseAux_true_space, ihr.2.1]
          · rw [collapseAux_true_space, ihr.2.2]
        · refine ⟨?_, ?_, ?_⟩
          · rw [collapseAux_false_space_nonspace _ _ hc2,
              collapseAux_false_nonspace _ _ hc2]
            rw [collapseAux_false_space_nonspace _ _ hc2,
              collapseAux_false_nonspace _ _ hc2, (collapseAux_idem r2).1]
          · rw [collapseAux_true_space, ihr.2.1]
          · rw [collapseAux_true_space, ihr.2.2]
    · have ihr := collapseAux_idem r
      refine ⟨?_, ?_, ?_⟩
      · rw [collapseAux_false_nonspace _ _ hc, collapseAux_false_nonspace _ _ hc, ihr.1]
      · rw [collapseAux_true_nonspace _ _ hc, collapseAux_false_nonspace _ _ hc, ihr.1]
      · rw [collapseAux_true_nonspace _ _ hc, collapseAux_true_nonspace _ _ hc, ihr.1]

theorem collapse_idem (s : List Char) :
    collapse_multiple_spaces_to_two (collapse_multiple_spaces_to_two s) =
      collapse_multiple_spaces_to_two s :=
  (collapseAux_idem s).1

/-! ## Lemmas about Python strip -/

theorem dropWhile_head_not (p : Char → Bool) :
    ∀ (l : List Char) (c : Char), (l.dropWhile p).head? = some c → p c = false
  | [], c => by simp
  | x :: xs, c => by
    rw [List.dropWhile_cons]
    by_cases hx : p x = true
    · rw [if_pos hx]
      exact dropWhile_head_not p xs c
    · rw [if_neg hx]
      intro h
      obtain rfl : x = c := by simpa using h
      simpa using hx

theorem dropWhile_eq_self_of_head (p : Char → Bool) (l : List Char)
    (h : ∀ c, l.head? = some c → p c = false) : l.dropWhile p = l := by
  cases l with
  | nil => rfl
  | cons x xs =>
    rw [List.dropWhile_cons, if_neg]
    simp [h x rfl]

theorem getLast?_dropWhile (p : Char → Bool) (l : List Char)
    (hne : l.dropWhile p ≠ []) : (l.dropWhile p).getLast? = l.getLast? := by
  obtain ⟨t, ht⟩ := List.dropWhile_suffix (l := l) p
  have hrw : l.getLast? = (t ++ l.dropWhile p).getLast? := by rw [ht]
  rw [hrw, List.getLast?_append]
  cases hg : (l.dropWhile p).getLast? with
  | none => exact absurd (List.getLast?_eq_none_iff.mp hg) hne
  | some c => rfl

theorem pyStripWs_eq_self (l : List Char)
    (h1 : ∀ c, l.head? = some c → isPySpace c = false)
    (h2 : ∀ c, l.getLast? = some c → isPySpace c = false) : pyStripWs l = l := by
  unfold pyStripWs
  rw [dropWhile_eq_self_of_head _ _ h1]
  rw [dropWhile_eq_self_of_head _ _ (by simpa [List.head?_reverse] using h2)]
  exact List.reverse_reverse l

theorem pyStripWs_head (s : List Char) (c : Char)
    (h : (pyStripWs s).head? = some c) : isPySpace c = false := by
  unfold pyStripWs at h
  rw [List.head?_reverse] at h
  have hne : (s.dropWhile isPySpace).reverse.dropWhile isPySpace ≠ [] := by
    intro h0
    rw [h0] at h
    simp at h
  rw [getLast?_dropWhile _ _ hne, List.getLast?_reverse] at h
  exact dropWhile_head_not _ _ _ h

theorem pyStripWs_last (s : List Char) (c : Char)
    (h : (pyStripWs s).getLast? = some c) : isPySpace c = false := by
  unfold pyStripWs at h
  rw [List.getLast?_reverse] at h
  exact dropWhile_head_not _ _ _ h

theorem space_isPySpace : isPySpace ' ' = true := by decide

theorem collapseAux_false_head (s : List Char) (c : Char)
    (h : s.head? = some c) (hc : c ≠ ' ') :
    (collapseAux false s).head? = some c := by
  cases s with
  | nil => simp at h
  | cons x xs =>
    obtain rfl : x = c := by simpa using h
    rw [collapseAux_false_nonspace _ _ hc]
    rfl

theorem getLast?_cons_of_ne_nil (a : Char) (l : List Char) (h : l ≠ []) :
    (a :: l).getLast? = l.getLast? := by
  cases l with
  | nil => exact absurd rfl h
  | cons b t => exact List.getLast?_cons_cons

theorem collapseAux_getLast : ∀ (b : Bool) (s : List Char) (c : Char),
    s.getLast? = some c → c ≠ ' ' → (collapseAux b s).getLast? = some c
  | b, [], c => by simp
  | b, [a], c => by
    intro h hc
    obtain rfl : a = c := by simpa using h
    cases b with
    | true => rw [collapseAux_true_nonspace _ _ hc, collapseAux_nil]; rfl
    | false => rw [collapseAux_false_nonspace _ _ hc, collapseAux_nil]; rfl
  | b, a :: a2 :: t, c => by
    intro h hc
    rw [List.getLast?_cons_cons] at h
    have hne : ∀ b' : Bool, collapseAux b' (a2 :: t) ≠ [] := by
      intro b' h0
      have := collapseAux_getLast b' (a2 :: t) c h hc
      rw [h0] at this
      simp at this
    cases b with
    | true =>
      by_cases ha : a = ' '
      · subst ha
        rw [collapseAux_true_space]
        exact collapseAux_getLast true (a2 :: t) c h hc
      · rw [collapseAux_true_nonspace _ _ ha,
          getLast?_cons_of_ne_nil _ _ (hne false)]
        exact collapseAux_getLast false (a2 :: t) c h hc
    | false =>
      by_cases ha : a = ' '
      · subst ha
        by_cases ha2 : a2 = ' '
        · subst ha2
          have ht : t ≠ [] := by
            intro h0
            subst h0
            simp at h
            exact hc h.symm
          have hgt : t.getLast? = some c := by
            rwa [getLast?_cons_of_ne_nil _ _ ht] at h
          have hnet : collapseAux true t ≠ [] := by
            intro h0
            have := collapseAux_getLast true t c hgt hc
            rw [h0] at this
            simp at this
          rw [collapseAux_false_space_space,
            getLast?_cons_of_ne_nil _ _ (by
              intro h0
              cases h0' : collapseAux true t with
              | nil => exact hnet h0'
              | cons y ys => rw [h0'] at h0; simp at h0),
            getLast?_cons_of_ne_nil _ _ hnet]
          exact collapseAux_getLast true t c hgt hc
        · rw [collapseAux_false_space_nonspace _ _ ha2,
            getLast?_cons_of_ne_nil _ _ (hne false)]
          exact collapseAux_getLast false (a2 :: t) c h hc
      · rw [collapseAux_false_nonspace _ _ ha,
          getLast?_cons_of_ne_nil _ _ (hne false)]
        exact collapseAux_getLast false (a2 :: t) c h hc

theorem not_space_of_not_pySpace (c : Char) (h : isPySpace c = false) : c ≠ ' ' := by
  intro h0
  subst h0
  simp [isPySpace] at h

/-- C10 helper: applying `strip` to a stripped string changes nothing. -/
theorem strip_strip_aux (s : List Char) :
    pyStripWs (collapse_multiple_spaces_to_two (pyStripWs s)) =
      collapse_multiple_spaces_to_two (pyStripWs s) := by
  cases ht : pyStripWs s with
  | nil => rw [collapse_multiple_spaces_to_two, collapseAux_nil]; rfl
  | cons c u =>
    have hhead : (pyStripWs s).head? = some c := by rw [ht]; rfl
    have hc : isPySpace c = false := pyStripWs_head s c hhead
    obtain ⟨c2, hlast⟩ : ∃ c2, (pyStripWs s).getLast? = some c2 := by
      cases hg : (pyStripWs s).getLast? with
      | none =>
        rw [List.getLast?_eq_none_iff] at hg
        rw [ht] at hg
        simp at hg
      | some c2 => exact ⟨c2, rfl⟩
    have hc2 : isPySpace c2 = false := pyStripWs_last s c2 hlast
    rw [← ht]
    apply pyStripWs_eq_self
    · intro d hd
      rw [collapse_multiple_spaces_to_two,
        collapseAux_false_head _ _ hhead (not_space_of_not_pySpace c hc)] at hd
      obtain rfl : c = d := by simpa using hd
      exact hc
    · intro d hd
      rw [collapse_multiple_spaces_to_two,
        collapseAux_getLast false _ _ hlast (not_space_of_not_pySpace c2 hc2)] at hd
      obtain rfl : c2 = d := by simpa using hd
      exact hc2

/-- C10: the text normalization applied to description, accountName and
categoryName is idempotent: `strip (strip s) = strip s` for every string,
where `strip` removes leading/trailing whitespace and collapses every run
of two or more spaces to exactly two spaces. -/
theorem strip_idempotent (s : List Char) : strip (strip s) = strip s := by
  unfold strip
  rw [strip_strip_aux]
  exact collapse_idem (pyStripWs s)

/-! ## Per-row transform lemmas -/

theorem transformRow_ok (today : PDate) (numeric : Bool) (r : Row) (o : OutRow)
    (h : transformRow today numeric r = .ok o) :
    ∃ amt pd, format_amount (cellOf numeric r.amount) r.transactionType = .ok amt ∧
      parseDate r.postedDate = some pd ∧
      o = { date := fmtMDYYYY pd
            description := strip r.description
            category := []
            amount := amt
            account := strip r.accountName
            accountNum := derive_account_number r.accountName
            institution := derive_institution r.accountName
            month := fmtMonth pd
            week := fmtWeek pd
            transactionId := []
            accountTag := []
            checkNumber := []
            fullDescription := strip r.description
            dateAdded := fmtMDYYYY today
            categoryHint := strip r.categoryName
            categorizedBy := []
            categorizedDate := []
            source := "Mint".data } := by
  unfold transformRow at h
  cases ha : format_amount (cellOf numeric r.amount) r.transactionType with
  | error e => rw [ha] at h; exact absurd h (by simp)
  | ok amt =>
    rw [ha] at h
    cases hd : parseDate r.postedDate with
    | none => rw [hd] at h; exact absurd h (by simp)
    | some pd =>
      rw [hd] at h
      exact ⟨amt, pd, rfl, rfl, by simpa using h.symm⟩

/-- C6: the output Description and Full Description equal the stripped
input description; the same rule produces Account from accountName and
Category Hint from categoryName; and the rule maps the two spec
examples as stated. -/
theorem output_text_columns (today : PDate) (numeric : Bool) (r : Row) (o : OutRow)
    (h : transformRow today numeric r = .ok o) :
    o.description = strip r.description ∧
    o.fullDescription = strip r.description ∧
    o.account = strip r.accountName ∧
    o.categoryHint = strip r.categoryName ∧
    strip "Coffee    Shop".data = "Coffee  Shop".data ∧
    strip "  Grocery ".data = "Grocery".data := by
  obtain ⟨amt, pd, -, -, rfl⟩ := transformRow_ok today numeric r o h
  refine ⟨rfl, rfl, rfl, rfl, by decide, by decide⟩

/-- C6 witness: on the concrete valid row, the transform succeeds and the
four text columns equal the stripped inputs. -/
theorem output_text_columns_witness :
    Except.map OutRow.fullDescription (transformRow dEx true rowValid) =
      .ok (strip "My  Coffee".data) ∧
    Except.map OutRow.account (transformRow dEx true rowValid) =
      .ok (strip "My Chase Checking 1234".data) := by
  have hok : (transformRow dEx true rowValid).isOk = true := by decide
  cases h : transformRow dEx true rowValid with
  | error e => rw [h] at hok; simp [Except.isOk, Except.toBool] at hok
  | ok o =>
    have hc := output_text_columns dEx true rowValid o h
    constructor
    · simp only [Except.map]
      rw [hc.2.1]
      rfl
    · simp only [Except.map]
      rw [hc.2.2.1]
      rfl

/-- C7: the Account # output is "xxxx" followed by the final four
characters of the account name exactly when those final four characters
are decimal digits (the regex match is anchored to the end of the string),
and is empty otherwise. -/
theorem account_number_rule (a : List Char) :
    (4 ≤ a.length ∧ (a.drop (a.length - 4)).all Char.isDigit = true →
      derive_account_number a = 'x' :: 'x' :: 'x' :: 'x' :: a.drop (a.length - 4)) ∧
    (¬(4 ≤ a.length ∧ (a.drop (a.length - 4)).all Char.isDigit = true) →
      derive_account_number a = []) := by
  rcases hr : a.reverse with - | ⟨d1, - | ⟨d2, - | ⟨d3, - | ⟨d4, rest⟩⟩⟩⟩
  case nil =>
    have ha : a = [] := by simpa using congrArg List.reverse hr
    subst ha
    exact ⟨fun h => by simp at h, fun h => rfl⟩
  case cons.nil =>
    have ha : a = [d1] := by simpa using congrArg List.reverse hr
    subst ha
    exact ⟨fun h => by simp at h, fun h => rfl⟩
  case cons.cons.nil =>
    have ha : a = [d2, d1] := by simpa using congrArg List.reverse hr
    subst ha
    exact ⟨fun h => by simp at h, fun h => rfl⟩
  case cons.cons.cons.nil =>
    have ha : a = [d3, d2, d1] := by simpa using congrArg List.reverse hr
    subst ha
    exact ⟨fun h => by simp at h, fun h => rfl⟩
  case cons.cons.cons.cons =>
    have ha : a = rest.reverse ++ [d4, d3, d2, d1] := by
      simpa using congrArg List.reverse hr
    have hlen : a.length = rest.length + 4 := by
      rw [ha]; simp
    have hdrop : a.drop (a.length - 4) = [d4, d3, d2, d1] := by
      have hl2 : (rest.reverse ++ [d4, d3, d2, d1]).length - 4 = rest.reverse.length := by
        simp
      rw [ha, hl2, List.drop_left]
    have hda : derive_account_number a =
        if d1.isDigit && d2.isDigit && d3.isDigit && d4.isDigit then
          'x' :: 'x' :: 'x' :: 'x' :: [d4, d3, d2, d1]
        else [] := by
      unfold derive_account_number
      rw [hr]
    by_cases hd : (d1.isDigit && d2.isDigit && d3.isDigit && d4.isDigit) = true
    · constructor
      · intro hcond
        rw [hda, if_pos hd, hdrop]
      · intro hcond
        exfalso
        apply hcond
        refine ⟨by omega, ?_⟩
        rw [hdrop]
        simp only [List.all_cons, List.all_nil, Bool.and_true]
        simp only [Bool.and_eq_true] at hd
        simp [hd.1.1.1, hd.1.1.2, hd.1.2, hd.2]
    · constructor
      · intro hcond
        exfalso
        apply hd
        have := hcond.2
        rw [hdrop] at this
        simp only [List.all_cons, List.all_nil, Bool.and_true, Bool.and_eq_true] at this
        simp [this.1, this.2.1, this.2.2.1, this.2.2.2]
      · intro hcond
        rw [hda, if_neg hd]

/-- C7 witness: the rule applied at "Checking 1234" (ends in four digits)
and "Savings" (does not). -/
theorem account_number_rule_witness :
    derive_account_number "Checking 1234".data =
      'x' :: 'x' :: 'x' :: 'x' ::
        ("Checking 1234".data.drop ("Checking 1234".data.length - 4)) ∧
    derive_account_number "Savings".data = [] := by
  refine ⟨(account_number_rule "Checking 1234".data).1 ⟨by decide, by decide⟩,
    (account_number_rule "Savings".data).2 ?_⟩
  intro h
  have := h.2
  revert this
  decide

/-! ## Case-insensitive comparison lemmas -/

theorem char_toNat_ofNat_valid (n : Nat) (h : n < 55296) : (Char.ofNat n).toNat = n := by
  have hv : n < 55296 ∨ 57343 < n ∧ n < 1114112 := Or.inl h
  rw [Char.ofNat, dif_pos hv]
  rfl

theorem char_toNat_inj (a b : Char) (h : a.toNat = b.toNat) : a = b := by
  have ha := Char.ofNat_toNat a
  rw [h, Char.ofNat_toNat b] at ha
  exact ha.symm

/-- One character of the upper/lower bridge: for an upper-case ASCII
letter `u` with lower-case form `l`, upper-casing a character yields `u`
exactly when lower-casing it yields `l`. -/
theorem pyCharBridge (c u l : Char) (h65 : 65 ≤ u.toNat) (h90 : u.toNat ≤ 90)
    (hl : l.toNat = u.toNat + 32) : (pyUpperChar c = u ↔ pyLowerChar c = l) := by
  unfold pyUpperChar pyLowerChar
  by_cases hc1 : 97 ≤ c.toNat ∧ c.toNat ≤ 122
  · rw [if_pos hc1, if_neg (by omega)]
    constructor
    · intro h
      apply char_toNat_inj
      have : (Char.ofNat (c.toNat - 32)).toNat = u.toNat := congrArg Char.toNat h
      rw [char_toNat_ofNat_valid _ (by omega)] at this
      omega
    · intro h
      have hcl : c.toNat = l.toNat := congrArg Char.toNat h
      apply char_toNat_inj
      rw [char_toNat_ofNat_valid _ (by omega)]
      omega
  · rw [if_neg hc1]
    by_cases hc2 : 65 ≤ c.toNat ∧ c.toNat ≤ 90
    · rw [if_pos hc2]
      constructor
      · intro h
        apply char_toNat_inj
        rw [char_toNat_ofNat_valid _ (by omega)]
        have : c.toNat = u.toNat := congrArg Char.toNat h
        omega
      · intro h
        apply char_toNat_inj
        have : (Char.ofNat (c.toNat + 32)).toNat = l.toNat := congrArg Char.toNat h
        rw [char_toNat_ofNat_valid _ (by omega)] at this
        omega
    · rw [if_neg hc2]
      constructor
      · intro h
        exfalso
        have : c.toNat = u.toNat := congrArg Char.toNat h
        omega
      · intro h
        exfalso
        have : c.toNat = l.toNat := congrArg Char.toNat h
        omega

/-- The Python test `transaction_type.upper() == "DEBIT"` holds exactly
when the transaction type case-insensitively equals DEBIT (lower-cased
equality with "debit"). -/
theorem upper_debit_iff (t : List Char) :
    pyUpper t = "DEBIT".data ↔ pyLower t = "debit".data := by
  have hD : "DEBIT".data = ['D', 'E', 'B', 'I', 'T'] := rfl
  have hd : "debit".data = ['d', 'e', 'b', 'i', 't'] := rfl
  rw [hD, hd]
  match t with
  | [] => simp [pyUpper, pyLower]
  | [c1] => simp [pyUpper, pyLower]
  | [c1, c2] => simp [pyUpper, pyLower]
  | [c1, c2, c3] => simp [pyUpper, pyLower]
  | [c1, c2, c3, c4] => simp [pyUpper, pyLower]
  | c1 :: c2 :: c3 :: c4 :: c5 :: rest =>
    simp only [pyUpper, pyLower, List.map_cons, List.cons.injEq, List.map_eq_nil_iff]
    rw [pyCharBridge c1 'D' 'd' (by decide) (by decide) (by decide),
      pyCharBridge c2 'E' 'e' (by decide) (by decide) (by decide),
      pyCharBridge c3 'B' 'b' (by decide) (by decide) (by decide),
      pyCharBridge c4 'I' 'i' (by decide) (by decide) (by decide),
      pyCharBridge c5 'T' 't' (by decide) (by decide) (by decide)]

/-- C5: for every row the transform accepts, the output Amount is the
negated absolute value of the parsed input amount when transactionType
case-insensitively equals DEBIT, and the absolute value for every other
transaction-type text. -/
theorem amount_sign_rule (today : PDate) (r : Row) (q : Rat)
    (hq : parseRat r.amount = some q)
    (hd : (parseDate r.postedDate).isSome = true) :
    Except.map OutRow.amount (transformRow today true r) =
      .ok (if pyLower r.transactionType = "debit".data then -|q| else |q|) := by
  have hcell : cellOf true r.amount = Cell.num q := by
    unfold cellOf
    rw [if_pos rfl, hq]
  cases hdate : parseDate r.postedDate with
  | none => rw [hdate] at hd; simp at hd
  | some pd =>
    unfold transformRow
    rw [hcell]
    unfold format_amount
    rw [hdate]
    simp only [Except.map]
    congr 1
    rw [if_congr (upper_debit_iff r.transactionType) rfl rfl]

/-- C5 witness: the concrete valid row has amount 42 and type "Debit",
so the output Amount is -42. -/
theorem amount_sign_rule_witness :
    parseRat rowValid.amount = some 42 ∧
    Except.map OutRow.amount (transformRow dEx true rowValid) = .ok (-42 : Rat) := by
  refine ⟨by decide, ?_⟩
  rw [amount_sign_rule dEx rowValid 42 (by decide) (by decide), if_pos (by decide)]
  have habs : |(42 : Rat)| = 42 := by decide
  rw [habs]

/-! ## Institution derivation lemmas -/

theorem findInstitution_eq_find (a : List Char) :
    ∀ l : List (List Char), (∀ n ∈ l, pyStripWs n = n) →
      findInstitution l a =
        (l.find? (fun n => isSubstring (pyLower n) (pyLower a))).getD "Unknown".data
  | [], _ => rfl
  | n :: rest, h => by
    unfold findInstitution
    rw [List.find?_cons]
    by_cases hn : isSubstring (pyLower n) (pyLower a) = true
    · rw [if_pos hn, hn]
      exact h n (by simp)
    · rw [if_neg hn, Bool.eq_false_iff.mpr hn]
      exact findInstitution_eq_find a rest (fun m hm => h m (by simp [hm]))

/-- C8: the Institution output follows the prioritized rule set: the three
account-name prefixes force "Bank of America"; otherwise the first known
institution whose name occurs case-insensitively in the account name wins;
otherwise "Unknown". -/
theorem institution_rule (a : List Char) :
    (("Adv Plus Banking".data.isPrefixOf a
        || "Adv SafeBalance Banking".data.isPrefixOf a
        || "Unlimited Cash Rewards Visa Signature".data.isPrefixOf a) = true →
      derive_institution a = "Bank of America".data) ∧
    (("Adv Plus Banking".data.isPrefixOf a
        || "Adv SafeBalance Banking".data.isPrefixOf a
        || "Unlimited Cash Rewards Visa Signature".data.isPrefixOf a) = false →
      derive_institution a =
        (known_institutions.find?
            (fun n => isSubstring (pyLower n) (pyLower a))).getD "Unknown".data) := by
  constructor
  · intro h
    unfold derive_institution
    by_cases h12 : ("Adv Plus Banking".data.isPrefixOf a
        || "Adv SafeBalance Banking".data.isPrefixOf a) = true
    · rw [if_pos h12]
    · rw [if_neg h12]
      have h3 : "Unlimited Cash Rewards Visa Signature".data.isPrefixOf a = true := by
        simp only [Bool.or_eq_true] at h h12
        tauto
      rw [if_pos h3]
  · intro h
    simp only [Bool.or_eq_false_iff] at h
    unfold derive_institution
    rw [if_neg (by simp [h.1.1, h.1.2]), if_neg (by simp [h.2])]
    exact findInstitution_eq_find a known_institutions (by decide)

/-- C8 witness: "My Chase Freedom" hits none of the prefixes, and the
first matching known institution is Chase. -/
theorem institution_rule_witness :
    derive_institution "My Chase Freedom".data =
      (known_institutions.find?
          (fun n => isSubstring (pyLower n) (pyLower "My Chase Freedom".data))).getD
        "Unknown".data ∧
    derive_institution "My Chase Freedom".data = "Chase".data := by
  have h := (institution_rule "My Chase Freedom".data).2 (by decide)
  exact ⟨h, by rw [h]; decide⟩

/-! ## String order and sorting lemmas -/

theorem strLt_cons (a b : Char) (as bs : List Char) :
    strLt (a :: as) (b :: bs) = true ↔
      a.toNat < b.toNat ∨ (a.toNat = b.toNat ∧ strLt as bs = true) := by
  simp [strLt, Bool.or_eq_true, Bool.and_eq_true, decide_eq_true_eq]

theorem strLt_trans : ∀ a b c : List Char,
    strLt a b = true → strLt b c = true → strLt a c = true
  | [], [], _ => by simp [strLt]
  | [], _ :: _, [] => by simp [strLt]
  | [], _ :: _, _ :: _ => by simp [strLt]
  | _ :: _, [], _ => by simp [strLt]
  | _ :: _, _ :: _, [] => by simp [strLt]
  | x :: xs, y :: ys, z :: zs => by
    rw [strLt_cons, strLt_cons, strLt_cons]
    intro h1 h2
    rcases h1 with h1 | ⟨h1e, h1t⟩
    · rcases h2 with h2 | ⟨h2e, h2t⟩
      · exact Or.inl (by omega)
      · exact Or.inl (by omega)
    · rcases h2 with h2 | ⟨h2e, h2t⟩
      · exact Or.inl (by omega)
      · exact Or.inr ⟨by omega, strLt_trans xs ys zs h1t h2t⟩

theorem strLt_asymm : ∀ a b : List Char, strLt a b = true → strLt b a = false
  | [], [] => by simp [strLt]
  | [], _ :: _ => by simp [strLt]
  | _ :: _, [] => by simp [strLt]
  | x :: xs, y :: ys => by
    rw [strLt_cons]
    intro h
    rw [Bool.eq_false_iff]
    intro hcon
    rw [strLt_cons] at hcon
    rcases h with h | ⟨he, ht⟩
    · rcases hcon with hc | ⟨hce, -⟩
      · omega
      · omega
    · rcases hcon with hc | ⟨hce, hct⟩
      · omega
      · rw [strLt_asymm xs ys ht] at hct
        exact Bool.noConfusion hct

theorem strLt_trichotomy : ∀ a b : List Char,
    strLt a b = true ∨ a = b ∨ strLt b a = true
  | [], [] => Or.inr (Or.inl rfl)
  | [], _ :: _ => Or.inl (by simp [strLt])
  | _ :: _, [] => Or.inr (Or.inr (by simp [strLt]))
  | x :: xs, y :: ys => by
    rcases Nat.lt_trichotomy x.toNat y.toNat with h | h | h
    · exact Or.inl ((strLt_cons x y xs ys).mpr (Or.inl h))
    · obtain rfl : x = y := char_toNat_inj x y h
      rcases strLt_trichotomy xs ys with ht | ht | ht
      · exact Or.inl ((strLt_cons x x xs ys).mpr (Or.inr ⟨rfl, ht⟩))
      · exact Or.inr (Or.inl (by rw [ht]))
      · exact Or.inr (Or.inr ((strLt_cons x x ys xs).mpr (Or.inr ⟨rfl, ht⟩)))
    · exact Or.inr (Or.inr ((strLt_cons y x ys xs).mpr (Or.inl h)))

theorem strLe_total (a b : List Char) : strLe a b = true ∨ strLe b a = true := by
  unfold strLe
  cases h : strLt b a with
  | false => exact Or.inl rfl
  | true => exact Or.inr (by rw [strLt_asymm b a h]; rfl)

theorem strLe_trans (a b c : List Char) (h1 : strLe a b = true) (h2 : strLe b c = true) :
    strLe a c = true := by
  unfold strLe at h1 h2 ⊢
  rw [Bool.not_eq_true'] at h1 h2 ⊢
  cases hca : strLt c a with
  | false => rfl
  | true =>
    exfalso
    rcases strLt_trichotomy c b with h | h | h
    · rw [h] at h2; exact Bool.noConfusion h2
    · subst h; rw [hca] at h1; exact Bool.noConfusion h1
    · have := strLt_trans b c a h hca
      rw [this] at h1
      exact Bool.noConfusion h1

theorem strLe_of_not_strLe (a b : List Char) (h : ¬ strLe a b = true) :
    strLe b a = true := by
  rcases strLe_total a b with h1 | h1
  · exact absurd h1 h
  · exact h1

theorem insertSorted_perm (x : List Char) :
    ∀ l : List (List Char), (insertSorted x l).Perm (x :: l)
  | [] => List.Perm.refl _
  | y :: ys => by
    unfold insertSorted
    by_cases h : strLe x y = true
    · rw [if_pos h]
    · rw [if_neg h]
      exact ((insertSorted_perm x ys).cons y).trans (List.Perm.swap x y ys)

theorem sortKeys_perm : ∀ l : List (List Char), (sortKeys l).Perm l
  | [] => List.Perm.refl _
  | x :: xs => by
    unfold sortKeys
    exact (insertSorted_perm x (sortKeys xs)).trans ((sortKeys_perm xs).cons x)

theorem insertSorted_sorted (x : List Char) :
    ∀ l : List (List Char), l.Pairwise (fun a b => strLe a b = true) →
      (insertSorted x l).Pairwise (fun a b => strLe a b = true)
  | [], _ => by simp [insertSorted]
  | y :: ys, h => by
    rw [List.pairwise_cons] at h
    unfold insertSorted
    by_cases hxy : strLe x y = true
    · rw [if_pos hxy]
      rw [List.pairwise_cons]
      refine ⟨?_, List.pairwise_cons.mpr h⟩
      intro b hb
      rcases List.mem_cons.mp hb with rfl | hb
      · exact hxy
      · exact strLe_trans x y b hxy (h.1 b hb)
    · rw [if_neg hxy]
      rw [List.pairwise_cons]
      constructor
      · intro b hb
        have hb' := (insertSorted_perm x ys).mem_iff.mp hb
        rcases List.mem_cons.mp hb' with heq | hb2
        · rw [heq]
          exact strLe_of_not_strLe x y hxy
        · exact h.1 b hb2
      · exact insertSorted_sorted x ys h.2

theorem sortKeys_sorted : ∀ l : List (List Char),
    (sortKeys l).Pairwise (fun a b => strLe a b = true)
  | [] => List.Pairwise.nil
  | x :: xs => insertSorted_sorted x (sortKeys xs) (sortKeys_sorted xs)

/-! ## Flattener lemmas -/

theorem mem_fieldnames (data : List Record) (k : List Char) :
    k ∈ fieldnames data ↔ (∃ r ∈ data, k ∈ recordKeys r) ∧ k ∉ EXCLUDED_KEYS := by
  unfold fieldnames
  rw [(sortKeys_perm _).mem_iff, List.mem_filter]
  unfold allKeys
  rw [List.mem_dedup, List.mem_flatMap]
  constructor
  · rintro ⟨h1, h2⟩
    refine ⟨h1, ?_⟩
    intro hmem
    rw [Bool.not_eq_eq_eq_not, Bool.not_true, ← Bool.not_eq_true] at h2
    exact h2 (List.elem_iff.mpr hmem)
  · rintro ⟨h1, h2⟩
    refine ⟨h1, ?_⟩
    rw [Bool.not_eq_eq_eq_not, Bool.not_true, ← Bool.not_eq_true]
    intro hc
    exact h2 (List.elem_iff.mp hc)

theorem nodup_fieldnames (data : List Record) : (fieldnames data).Nodup := by
  unfold fieldnames
  rw [(sortKeys_perm _).nodup_iff]
  exact (List.nodup_dedup _).filter _

/-- C3: for every non-empty record sequence, the Flattener emits a table
whose column list is sorted in the Python string order and duplicate-free,
contains exactly the keys occurring in some record minus the exclusion
set, and whose rows are one per record with exactly one value per column:
the record's value when the key is present, the empty value otherwise. -/
theorem flattener_columns (data : List Record) (hne : data ≠ []) :
    flatten data = some (fieldnames data, data.map (rowFor (fieldnames data))) ∧
    (fieldnames data).Pairwise (fun a b => strLe a b = true) ∧
    (fieldnames data).Nodup ∧
    (∀ k, k ∈ fieldnames data ↔
      (∃ r ∈ data, k ∈ recordKeys r) ∧ k ∉ EXCLUDED_KEYS) ∧
    (data.map (rowFor (fieldnames data))).length = data.length ∧
    (∀ r ∈ data, (rowFor (fieldnames data) r).length = (fieldnames data).length) ∧
    (∀ r ∈ data, ∀ i, (h : i < (fieldnames data).length) →
      (rowFor (fieldnames data) r)[i]? =
        some ((r.lookup ((fieldnames data).get ⟨i, h⟩)).getD [])) := by
  refine ⟨?_, sortKeys_sorted _, nodup_fieldnames data, mem_fieldnames data, ?_, ?_, ?_⟩
  · unfold flatten
    rw [if_neg (by simpa using hne)]
  · rw [List.length_map]
  · intro r hr
    unfold rowFor
    rw [List.length_map]
  · intro r hr i h
    unfold rowFor
    rw [List.getElem?_map, List.getElem?_eq_getElem h]
    rfl

/-- C3 witness: a concrete two-record input, with a key (`tags`) removed
by the exclusion set and keys distributed unevenly across records. -/
theorem flattener_columns_witness :
    flatten exData = some (fieldnames exData, exData.map (rowFor (fieldnames exData))) ∧
    fieldnames exData = ["a".data, "b".data, "c".data] ∧
    exData.map (rowFor (fieldnames exData)) =
      [["2".data, "1".data, []], [[], [], "3".data]] := by
  refine ⟨(flattener_columns exData (by decide)).1, by decide, by decide⟩

/-! ## Normalizer filtering lemmas -/

theorem cellEqZero_cellOf_true (s : List Char) :
    cellEqZero (cellOf true s) = (parseRat s == some 0) := by
  unfold cellOf
  rw [if_pos rfl]
  cases h : parseRat s with
  | none => simp [cellEqZero]
  | some q => simp [cellEqZero]

/-- C1: rows whose status is exactly "PENDING" are discarded first; the
zero-amount check applies only to the remaining rows, so a PENDING row
with amount 0 is discarded once, as PENDING; a row is valid exactly when
its status is not "PENDING" and its amount is not 0. -/
theorem classification_rule (rows : List Row) (h : amountsNumeric rows = true) :
    filter_pending_transactions rows =
      rows.filter (fun r => r.status == "PENDING".data) ∧
    zeroRows rows =
      rows.filter (fun r =>
        !(r.status == "PENDING".data) && (parseRat r.amount == some 0)) ∧
    validRows rows =
      rows.filter (fun r =>
        !(r.status == "PENDING".data) && !(parseRat r.amount == some 0)) ∧
    (filter_pending_transactions rows).all
      (fun r => !((zeroRows rows).contains r)) = true := by
  have hz : zeroRows rows =
      rows.filter (fun r =>
        !(r.status == "PENDING".data) && (parseRat r.amount == some 0)) := by
    unfold zeroRows restRows
    rw [List.filter_filter]
    congr 1
    funext r
    rw [h, cellEqZero_cellOf_true]
    rw [Bool.and_comm]
  refine ⟨rfl, hz, ?_, ?_⟩
  · unfold validRows restRows
    rw [List.filter_filter]
    congr 1
    funext r
    rw [h, cellEqZero_cellOf_true]
    rw [Bool.and_comm]
  · rw [List.all_eq_true]
    intro r hr
    unfold filter_pending_transactions at hr
    rw [List.mem_filter] at hr
    rw [Bool.not_eq_eq_eq_not, Bool.not_true, ← Bool.not_eq_true]
    intro hc
    have hmem := List.elem_iff.mp hc
    rw [hz, List.mem_filter, Bool.and_eq_true, Bool.not_eq_true'] at hmem
    rw [hmem.2.1] at hr
    exact Bool.noConfusion hr.2

/-- C1 witness: the three-row table (one PENDING, one zero, one valid) is
numeric and classified as the claim states. -/
theorem classification_rule_witness :
    amountsNumeric exRows = true ∧
    filter_pending_transactions exRows =
      exRows.filter (fun r => r.status == "PENDING".data) ∧
    zeroRows exRows =
      exRows.filter (fun r =>
        !(r.status == "PENDING".data) && (parseRat r.amount == some 0)) ∧
    validRows exRows =
      exRows.filter (fun r =>
        !(r.status == "PENDING".data) && !(parseRat r.amount == some 0)) ∧
    (filter_pending_transactions exRows).all
      (fun r => !((zeroRows exRows).contains r)) = true :=
  ⟨by decide, classification_rule exRows (by decide)⟩

/-- C4: the discard table is PENDING rows first, then zero-amount rows,
each block in original relative order (a sublist of the input), in the
original input row shape; the discard file is the first write of the run
when the table is non-empty and no discard write happens when it is
empty.  As in C1, the hypothesis restricts the table to the spec's
signed-decimal amounts, the fragment on which the model's zero check
agrees with the real numeric column. -/
theorem discard_table_rule (rows : List Row) (today : PDate)
    (_hnum : amountsNumeric rows = true) :
    (filter_pending_transactions rows ++ zeroRows rows ≠ [] →
      (transform_transactions rows today).writes.head? =
        some (FileWrite.discard (filter_pending_transactions rows ++ zeroRows rows))) ∧
    (filter_pending_transactions rows ++ zeroRows rows = [] →
      ∀ t, FileWrite.discard t ∉ (transform_transactions rows today).writes) ∧
    (filter_pending_transactions rows).Sublist rows ∧
    (zeroRows rows).Sublist rows ∧
    (∀ r ∈ filter_pending_transactions rows ++ zeroRows rows, r ∈ rows) := by
  have hsub1 : (filter_pending_transactions rows).Sublist rows := List.filter_sublist rows
  have hsub2 : (zeroRows rows).Sublist rows :=
    (List.filter_sublist _).trans (List.filter_sublist rows)
  refine ⟨?_, ?_, hsub1, hsub2, ?_⟩
  · intro hne
    unfold transform_transactions
    dsimp only
    rw [if_pos (by
      cases hd : filter_pending_transactions rows ++ zeroRows rows with
      | nil => exact absurd hd hne
      | cons a t => simp [hd])]
    cases transformAll today (amountsNumeric rows) (validRows rows) with
    | error e => rfl
    | ok os => rfl
  · intro hemp t
    unfold transform_transactions
    dsimp only
    rw [hemp]
    rw [if_neg (by simp)]
    cases transformAll today (amountsNumeric rows) (validRows rows) with
    | error e => simp
    | ok os => simp
  · intro r hr
    rcases List.mem_append.mp hr with h | h
    · exact hsub1.mem h
    · exact hsub2.mem h

/-- C4 witness: the three-row table is numeric, and the discard file is
written first, holding the PENDING row then the zero row, both original
input rows. -/
theorem discard_table_rule_witness :
    amountsNumeric exRows = true ∧
    filter_pending_transactions exRows ++ zeroRows exRows = [rowPending, rowZero] ∧
    (transform_transactions exRows dEx).writes.head? =
      some (FileWrite.discard (filter_pending_transactions exRows ++ zeroRows exRows)) := by
  refine ⟨by decide, by decide, (discard_table_rule exRows dEx (by decide)).1 (by decide)⟩

/-! ## Fatal-error lemmas -/

theorem transformRow_blank (d1 d2 : PDate) (numeric : Bool) (r : Row) :
    Except.map blankAdded (transformRow d1 numeric r) =
      Except.map blankAdded (transformRow d2 numeric r) := by
  unfold transformRow
  cases ha : format_amount (cellOf numeric r.amount) r.transactionType with
  | error e => rfl
  | ok amt =>
    cases hd : parseDate r.postedDate with
    | none => rfl
    | some pd => rfl

theorem transformRow_dateAdded (d : PDate) (numeric : Bool) (r : Row) (o : OutRow)
    (h : transformRow d numeric r = .ok o) : o.dateAdded = fmtMDYYYY d := by
  obtain ⟨amt, pd, -, -, rfl⟩ := transformRow_ok d numeric r o h
  rfl

theorem transformAll_blank (d1 d2 : PDate) (numeric : Bool) :
    ∀ l : List Row,
      Except.map (List.map blankAdded) (transformAll d1 numeric l) =
        Except.map (List.map blankAdded) (transformAll d2 numeric l)
  | [] => rfl
  | r :: rs => by
    have hrow := transformRow_blank d1 d2 numeric r
    have hrest := transformAll_blank d1 d2 numeric rs
    unfold transformAll
    cases h1 : transformRow d1 numeric r with
    | error e =>
      cases h2 : transformRow d2 numeric r with
      | error e2 => cases e; cases e2; rfl
      | ok o2 => rw [h1, h2] at hrow; exact absurd hrow (by simp [Except.map])
    | ok o1 =>
      cases h2 : transformRow d2 numeric r with
      | error e2 => rw [h1, h2] at hrow; exact absurd hrow (by simp [Except.map])
      | ok o2 =>
        rw [h1, h2] at hrow
        have ho : blankAdded o1 = blankAdded o2 := by
          simpa [Except.map] using hrow
        cases g1 : transformAll d1 numeric rs with
        | error e =>
          cases g2 : transformAll d2 numeric rs with
          | error e2 => cases e; cases e2; rfl
          | ok os2 => rw [g1, g2] at hrest; exact absurd hrest (by simp [Except.map])
        | ok os1 =>
          cases g2 : transformAll d2 numeric rs with
          | error e2 => rw [g1, g2] at hrest; exact absurd hrest (by simp [Except.map])
          | ok os2 =>
            rw [g1, g2] at hrest
            have hos : os1.map blankAdded = os2.map blankAdded := by
              simpa [Except.map] using hrest
            simp only [Except.map]
            rw [List.map_cons, List.map_cons, ho, hos]

theorem transformAll_dateAdded (d : PDate) (numeric : Bool) :
    ∀ (l : List Row) (os : List OutRow), transformAll d numeric l = .ok os →
      ∀ o ∈ os, o.dateAdded = fmtMDYYYY d
  | [], os => by
    intro h o ho
    unfold transformAll at h
    obtain rfl : ([] : List OutRow) = os := by simpa using h
    simp at ho
  | r :: rs, os => by
    intro h o ho
    unfold transformAll at h
    cases h1 : transformRow d numeric r with
    | error e => rw [h1] at h; exact absurd h (by simp)
    | ok o1 =>
      rw [h1] at h
      cases g1 : transformAll d numeric rs with
      | error e => rw [g1] at h; exact absurd h (by simp)
      | ok os1 =>
        rw [g1] at h
        obtain rfl : o1 :: os1 = os := by simpa using h
        rcases List.mem_cons.mp ho with heq | hmem
        · rw [heq]
          exact transformRow_dateAdded d numeric r o1 h1
        · exact transformAll_dateAdded d numeric rs os1 g1 o hmem

/-- C9: with the run date held fixed, the Normalizer output is a function
of the input alone; across different run dates only the Date Added column
changes, and that column holds the formatted run date on every output row
irrespective of the input. -/
theorem run_determinism (rows : List Row) (d1 d2 : PDate) :
    blankRun (transform_transactions rows d1) = blankRun (transform_transactions rows d2) ∧
    dateAddedConst (transform_transactions rows d1) (fmtMDYYYY d1) = true := by
  constructor
  · unfold transform_transactions
    dsimp only
    have hall := transformAll_blank d1 d2 (amountsNumeric rows) (validRows rows)
    cases g1 : transformAll d1 (amountsNumeric rows) (validRows rows) with
    | error e =>
      cases g2 : transformAll d2 (amountsNumeric rows) (validRows rows) with
      | error e2 => rfl
      | ok os2 => rw [g1, g2] at hall; exact absurd hall (by simp [Except.map])
    | ok os1 =>
      cases g2 : transformAll d2 (amountsNumeric rows) (validRows rows) with
      | error e2 => rw [g1, g2] at hall; exact absurd hall (by simp [Except.map])
      | ok os2 =>
        rw [g1, g2] at hall
        have hos : os1.map blankAdded = os2.map blankAdded := by
          simpa [Except.map] using hall
        unfold blankRun
        simp only [List.map_append]
        rw [show (([FileWrite.output os1] : List FileWrite).map blankWrite =
            ([FileWrite.output os2] : List FileWrite).map blankWrite) from by
          simp only [List.map_cons, List.map_nil, blankWrite]
          rw [hos]]
  · unfold transform_transactions
    dsimp only
    cases g1 : transformAll d1 (amountsNumeric rows) (validRows rows) with
    | error e =>
      unfold dateAddedConst
      rw [List.all_eq_true]
      intro w hw
      by_cases hd : (filter_pending_transactions rows ++ zeroRows rows).length > 0
      · rw [if_pos hd] at hw
        rcases List.mem_cons.mp hw with heq | hmem
        · rw [heq]
        · simp at hmem
      · rw [if_neg hd] at hw
        simp at hw
    | ok os1 =>
      unfold dateAddedConst
      rw [List.all_eq_true]
      intro w hw
      have hout : ∀ o ∈ os1, o.dateAdded = fmtMDYYYY d1 :=
        transformAll_dateAdded d1 (amountsNumeric rows) (validRows rows) os1 g1
      rcases List.mem_append.mp hw with hmem | hmem
      · by_cases hd : (filter_pending_transactions rows ++ zeroRows rows).length > 0
        · rw [if_pos hd] at hmem
          rcases List.mem_cons.mp hmem with heq | hmem2
          · rw [heq]
          · simp at hmem2
        · rw [if_neg hd] at hmem
          simp at hmem
      · rcases List.mem_cons.mp hmem with heq | hmem2
        · rw [heq]
          rw [List.all_eq_true]
          intro o ho
          rw [beq_iff_eq]
          exact hout o ho
        · simp at hmem2

end MintTiller
